import Mathlib

/-!
Verification development for the pylisp interpreter
(`src/pylisp/parser.py`): a shallow embedding of its tokenizer, parser,
expression model, environment chain and evaluator, with theorems that
settle the specification's claims.

Modelling notes, fixed here once for the whole file:
* Python machine floats are modelled by exact integer fractions
  (`PyFloat`, an unreduced numerator/denominator pair with the
  denominator kept positive).  Every arithmetic step exercised by the
  claims is exact, so no rounding behaviour is lost on those inputs.
  Python float *literals* in `Atom.__init__` are not modelled: no float
  literal occurs in the claims, and a non-integer token simply stays a
  symbol here (exactly as it does in Python for non-numeric tokens).
* Python `int(token)` is modelled for an optional sign followed by ASCII
  decimal digits; Python's extra acceptance of underscores, surrounding
  whitespace and non-ASCII digits never arises for the claims' tokens.
* Object identity (`is`, default `__eq__`/`__hash__` of `Atom`/`Udf`)
  cannot exist in a structural model; dictionary key comparison and
  `eq?` use structural equality there.  No claim exercises identity.
* Evaluation is fuel-indexed (`Err.fuel` marks exhaustion); all claims
  are settled with results distinct from fuel exhaustion.
-/

namespace Pylisp

/-- Tokens: Python tokens are strings; we work with character lists. -/
abbrev Tok := List Char

/-- Character code 39, the quote mark prepended by `List.__str__`. -/
def qc : Char := Char.ofNat 39

/-- Model of `s.replace("(", " ( ").replace(")", " ) ")` in `tokenize`:
each parenthesis gets surrounded by single spaces. -/
def expandParens : List Char → List Char
  | [] => []
  | c :: cs =>
    if c = '(' then ' ' :: '(' :: ' ' :: expandParens cs
    else if c = ')' then ' ' :: ')' :: ' ' :: expandParens cs
    else c :: expandParens cs

/-- Model of Python `str.split()` with no separator: split on whitespace
runs and drop empty pieces; `acc` is the token being accumulated. -/
def splitWsAux : List Char → List Char → List Tok
  | [], acc => if acc = [] then [] else [acc]
  | c :: cs, acc =>
    if c.isWhitespace then
      (if acc = [] then [] else [acc]) ++ splitWsAux cs []
    else splitWsAux cs (acc ++ [c])

/-- Model of pylisp `tokenize`: isolate parentheses, split on whitespace,
returning the queue as a list consumed from the front. -/
def tokenize (s : String) : List Tok :=
  splitWsAux (expandParens s.toList) []

/-- Decimal digit character for a value below ten. -/
def digChar (n : Nat) : Char := Char.ofNat (48 + n)

/-- ASCII decimal digit test. -/
def isDig (c : Char) : Bool := 48 ≤ c.toNat && c.toNat ≤ 57

/-- Numeric value of an ASCII digit. -/
def digVal (c : Char) : Nat := c.toNat - 48

/-- Parse an unsigned run of decimal digits (the digit part of
Python `int(token)`). -/
def parseDigits (cs : List Char) : Option Nat :=
  if cs ≠ [] && cs.all isDig then
    some (cs.foldl (fun a c => a * 10 + digVal c) 0)
  else none

/-- Model of Python `int(token)`: optional sign, then decimal digits. -/
def intParse : List Char → Option Int
  | '+' :: rest => (parseDigits rest).map (fun n => (n : Int))
  | '-' :: rest => (parseDigits rest).map (fun n => -(n : Int))
  | cs => (parseDigits cs).map (fun n => (n : Int))

/-- Decimal digit string of a natural number, fuel-indexed so that it
computes by kernel reduction. -/
def natDigsF : Nat → Nat → List Char
  | 0, _ => []
  | f + 1, n =>
    if n < 10 then [digChar n] else natDigsF f (n / 10) ++ [digChar (n % 10)]

/-- Decimal digit string of a natural number (`n + 1` fuel always
suffices since the argument shrinks at every step). -/
def natDigs (n : Nat) : List Char := natDigsF (n + 1) n

/-- Model of Python `str(int)`: minus sign for negatives, then digits. -/
def intRender (n : Int) : List Char :=
  if n < 0 then '-' :: natDigs n.natAbs else natDigs n.natAbs

/-- Characters legal inside a non-parenthesis token. -/
def okChar (c : Char) : Bool := !c.isWhitespace && c ≠ '(' && c ≠ ')'

/-- Well-formed atom token: nonempty and free of whitespace/parentheses,
which is exactly what `tokenize` can emit besides `(` and `)`. -/
def wfTok (t : Tok) : Bool := t ≠ [] && t.all okChar

/-- Exact model of a Python float value: an unreduced fraction whose
denominator is kept positive by construction.  All float values the
claims produce come from exact true division of integers. -/
structure PyFloat where
  num : Int
  den : Int
deriving Repr, DecidableEq

/-- Value held by an `Atom` after construction (`Atom.__init__` tries
`int(token)` and otherwise keeps the token text; see the file header on
float literals). -/
inductive AtomVal where
  | int : Int → AtomVal
  | str : String → AtomVal
deriving Repr, DecidableEq

/-- Primitive operators installed by `Program.__init__`. -/
inductive Prim where
  | add | sub | mul | div | lt | gt | eq | car | cdr | cons | print
deriving Repr, DecidableEq

/-- Python object universe reachable by the interpreter: `Atom` and
`List` AST nodes (both are also runtime values), plain numbers, strings,
booleans, `None`, closures (`Udf`, holding the unevaluated parameter
expression, the body and the id of the captured environment) and the
primitive callables. -/
inductive Obj where
  | atom : AtomVal → Obj
  | list : List Obj → Obj
  | int : Int → Obj
  | real : PyFloat → Obj
  | str : String → Obj
  | bool : Bool → Obj
  | none : Obj
  | udf : Obj → Obj → Nat → Obj
  | prim : Prim → Obj
deriving Repr

/-- Model of `Atom.__init__`: an integer token becomes an integer atom,
anything else keeps its text. -/
def mkAtom (t : Tok) : AtomVal :=
  match intParse t with
  | some n => .int n
  | none => .str ⟨t⟩

/-- Errors the embedded interpreter can surface.  `synErr` is Python's
`SyntaxError`; `assertErr` and `notCallable` are both Python
`AssertionError`s (kept apart because the latter carries the
"Not callable" message); `fuel` marks exhaustion of the fuel index and
corresponds to no Python behaviour. -/
inductive Err where
  | fuel
  | indexError
  | typeError
  | attrError
  | assertErr
  | notCallable
  | zeroDiv
  | synErr : String → Err
deriving Repr, DecidableEq

mutual

/-- Model of pylisp `parse`: pop the first token; an open parenthesis
starts a `List` filled by the loop (`parseLoop`), a bare close
parenthesis is a `SyntaxError`, anything else becomes an `Atom`.
Popping an empty queue is Python's `IndexError`. -/
def parseT : Nat → List Tok → Except Err (Obj × List Tok)
  | 0, _ => .error .fuel
  | _ + 1, [] => .error .indexError
  | f + 1, t :: ts =>
    if t = ['('] then
      match parseLoop f ts with
      | .ok (xs, rest) => .ok (.list xs, rest)
      | .error e => .error e
    else if t = [')'] then .error (.synErr "Unexpected )")
    else .ok (.atom (mkAtom t), ts)

/-- Model of the `while tokens[0] != ")"` loop inside `parse`: peeking an
empty queue is an `IndexError`; after each parsed child an empty queue is
the `Missing )` `SyntaxError`; the closing parenthesis is consumed. -/
def parseLoop : Nat → List Tok → Except Err (List Obj × List Tok)
  | 0, _ => .error .fuel
  | _ + 1, [] => .error .indexError
  | f + 1, t :: ts =>
    if t = [')'] then .ok ([], ts)
    else
      match parseT f (t :: ts) with
      | .error e => .error e
      | .ok (child, rest) =>
        match rest with
        | [] => .error (.synErr "Missing )")
        | _ =>
          match parseLoop f rest with
          | .error e => .error e
          | .ok (children, rest2) => .ok (child :: children, rest2)

end

/-- Fuel that always suffices for `parseT` (proved below), making
`parseTop` the deterministic parse function on a token queue. -/
def parseTop (ts : List Tok) : Except Err (Obj × List Tok) :=
  parseT (2 * ts.length + 2) ts

/-- Numeric view of an object, as an exact fraction: Python arithmetic
treats `bool` as the integers 0 and 1. -/
def numPair : Obj → Option (Int × Int)
  | .int n => some (n, 1)
  | .real r => some (r.num, r.den)
  | .bool b => some (if b then 1 else 0, 1)
  | _ => none

/-- Equality of two exact fractions by cross multiplication. -/
def pyNumEq (p q : Int × Int) : Bool := p.1 * q.2 == q.1 * p.2

mutual

/-- Model of Python `==` on the objects of this interpreter: numbers
(including booleans) compare by value across kinds, strings and `None`
structurally, lists elementwise, and everything else cross-kind unequal.
`Atom` and `Udf` objects compare by identity in Python; the structural
comparison used here coincides on every comparison the program performs
(see the file header). -/
def pyEq : Obj → Obj → Bool
  | .str a, .str b => a == b
  | .none, .none => true
  | .atom a, .atom b => a == b
  | .list xs, .list ys => pyEqList xs ys
  | .udf a b e, .udf c d e2 => pyEq a c && pyEq b d && e == e2
  | .prim p, .prim q => p == q
  | x, y =>
    match numPair x, numPair y with
    | some p, some q => pyNumEq p q
    | _, _ => false

/-- Elementwise Python `==` on lists. -/
def pyEqList : List Obj → List Obj → Bool
  | [], [] => true
  | x :: xs, y :: ys => pyEq x y && pyEqList xs ys
  | _, _ => false

end

/-- Model of Python truthiness for the objects of this interpreter:
zero numbers, the empty string, the empty list, `False` and `None` are
falsy; `Atom`, `Udf` and primitive objects are truthy. -/
def truthy : Obj → Bool
  | .int n => !(n == 0)
  | .real r => !(r.num == 0)
  | .bool b => b
  | .str s => !(s == "")
  | .list xs => !xs.isEmpty
  | .none => false
  | .atom _ => true
  | .udf _ _ _ => true
  | .prim _ => true

mutual

/-- Model of `str()` on interpreter objects: `Atom.__str__` is the plain
text of the held value, `List.__str__` is a quote mark, `(`, the
space-joined element renderings, and `)`.  The renderings of `Udf` and
primitive objects (which Python shows with memory addresses) and of
non-integral floats (Python's shortest-roundtrip repr) are placeholders;
no claim renders such an object. -/
def renderObj : Obj → List Char
  | .atom (.int n) => intRender n
  | .atom (.str s) => s.toList
  | .int n => intRender n
  | .real r =>
    if r.den == 1 then intRender r.num ++ ['.', '0'] else '<' :: 'f' :: '>' :: []
  | .str s => s.toList
  | .bool b => if b then "True".toList else "False".toList
  | .none => "None".toList
  | .list xs => qc :: '(' :: renderList xs ++ [')']
  | .udf _ _ _ => '<' :: 'U' :: '>' :: []
  | .prim _ => '<' :: 'P' :: '>' :: []

/-- Space-joined renderings, Python `" ".join(map(str, self))`. -/
def renderList : List Obj → List Char
  | [] => []
  | [x] => renderObj x
  | x :: y :: xs => renderObj x ++ ' ' :: renderList (y :: xs)

end

/-- The display text of an object as a string. -/
def renderStr (o : Obj) : String := ⟨renderObj o⟩

/-- One environment frame: the `dict` contents (in insertion order, as a
Python dict preserves) and the link to the outer environment, given as an
index into the store. -/
structure Frame where
  entries : List (Obj × Obj)
  outer : Option Nat
deriving Repr

/-- Interpreter state: the store of all environment frames ever created
(mutation and sharing of environments happen through indices into it)
plus the `Program.stdout` buffer fed by the `print` primitive. -/
structure St where
  frames : List Frame
  out : List String
deriving Repr

/-- Dictionary lookup with Python key equality. -/
def dictGet : List (Obj × Obj) → Obj → Option Obj
  | [], _ => none
  | (k0, v) :: rest, k => if pyEq k0 k then some v else dictGet rest k

/-- Dictionary update: overwrite an existing key in place, else append —
Python dict insertion-order semantics. -/
def dictSet : List (Obj × Obj) → Obj → Obj → List (Obj × Obj)
  | [], k, v => [(k, v)]
  | (k0, v0) :: rest, k, v =>
    if pyEq k0 k then (k0, v) :: rest else (k0, v0) :: dictSet rest k v

/-- Python hashability of the objects here: only lists are unhashable. -/
def hashable : Obj → Bool
  | .list _ => false
  | _ => true

/-- Entries of the frame at index `i` (an index outside the store never
arises; it reads as an empty frame). -/
def entriesOf (st : St) (i : Nat) : List (Obj × Obj) :=
  ((st.frames.get? i).map Frame.entries).getD []

/-- Outer link of the frame at index `i`. -/
def outerOf (st : St) (i : Nat) : Option Nat :=
  ((st.frames.get? i).map Frame.outer).getD none

/-- Model of `Env.find`: return `self` when there is no truthy outer
environment (`not self.outer` — which is also true when the outer frame
is an *empty* dict, since an empty dict is falsy) or when the name is
bound locally; otherwise recurse into the outer frame.  The result is
the index of the frame where the search stopped. -/
def findEnv (st : St) : Nat → Nat → String → Nat
  | 0, i, _ => i
  | f + 1, i, s =>
    match outerOf st i with
    | none => i
    | some j =>
      if (entriesOf st j).isEmpty then i
      else if (dictGet (entriesOf st i) (.str s)).isSome then i
      else findEnv st f j s

/-- Model of `Atom.eval`: numbers evaluate to themselves; a symbol is
looked up through the scope chain when the supplied environment is
truthy (`if env and ...` — an *empty* current frame is falsy, skipping
the search) and evaluates to its own text when the search fails.  The
fuel `i + 1` always covers the chain because every frame's outer index
is smaller than its own. -/
def atomEval (a : AtomVal) (i : Nat) (st : St) : Obj :=
  match a with
  | .int n => .int n
  | .str s =>
    if (entriesOf st i).isEmpty then .str s
    else
      match dictGet (entriesOf st (findEnv st (i + 1) i s)) (.str s) with
      | some v => v
      | none => .str s

/-- Build a float value, keeping the denominator positive. -/
def mkFloat (n d : Int) : PyFloat := if d < 0 then ⟨-n, -d⟩ else ⟨n, d⟩

/-- Is the object a Python float? -/
def isReal : Obj → Bool
  | .real _ => true
  | _ => false

/-- Python `+` on numbers: an int (or bool) pair stays an int, a float
operand makes the result a float.  Everything non-numeric is a
`TypeError` (so `sum` over strings or lists fails, as in Python). -/
def addObj (a b : Obj) : Except Err Obj :=
  match numPair a, numPair b with
  | some p, some q =>
    if isReal a || isReal b then
      .ok (.real (mkFloat (p.1 * q.2 + q.1 * p.2) (p.2 * q.2)))
    else .ok (.int (p.1 + q.1))
  | _, _ => .error .typeError

/-- Python `-` on numbers, with the same promotion rule as `addObj`. -/
def subObj (a b : Obj) : Except Err Obj :=
  match numPair a, numPair b with
  | some p, some q =>
    if isReal a || isReal b then
      .ok (.real (mkFloat (p.1 * q.2 - q.1 * p.2) (p.2 * q.2)))
    else .ok (.int (p.1 - q.1))
  | _, _ => .error .typeError

/-- Python `*` on numbers.  Sequence repetition (`str * int`) is not
modelled; no claim multiplies a non-number. -/
def mulObj (a b : Obj) : Except Err Obj :=
  match numPair a, numPair b with
  | some p, some q =>
    if isReal a || isReal b then .ok (.real (mkFloat (p.1 * q.1) (p.2 * q.2)))
    else .ok (.int (p.1 * q.1))
  | _, _ => .error .typeError

/-- Python `/` (true division): always a float, `ZeroDivisionError` on a
zero divisor. -/
def divObj (a b : Obj) : Except Err Obj :=
  match numPair a, numPair b with
  | some p, some q =>
    if q.1 == 0 then .error .zeroDiv
    else .ok (.real (mkFloat (p.1 * q.2) (p.2 * q.1)))
  | _, _ => .error .typeError

/-- Python `<` on two objects: numbers by value (denominators are
positive by construction, so cross multiplication is order-correct),
strings lexicographically, anything else a `TypeError` (list-list
comparison is not modelled; no claim compares lists). -/
def ltObj (a b : Obj) : Except Err Obj :=
  match a, b with
  | .str s1, .str s2 => .ok (.bool (decide (s1 < s2)))
  | _, _ =>
    match numPair a, numPair b with
    | some p, some q => .ok (.bool (decide (p.1 * q.2 < q.1 * p.2)))
    | _, _ => .error .typeError

/-- Python subscripting `o[n]` for the objects that appear here: list
indexing, string indexing (a one-character string), and a `TypeError`
for everything else (an `Atom` is not subscriptable). -/
def pyGetItem (o : Obj) (n : Nat) : Except Err Obj :=
  match o with
  | .list xs =>
    match xs.get? n with
    | some x => .ok x
    | Option.none => .error .indexError
  | .str s =>
    match s.toList.get? n with
    | some c => .ok (.str ⟨[c]⟩)
    | Option.none => .error .indexError
  | _ => .error .typeError

/-- Left fold of `addObj`, the body of Python `sum`. -/
def sumObjs : Obj → List Obj → Except Err Obj
  | acc, [] => .ok acc
  | acc, v :: rest =>
    match addObj acc v with
    | .error e => .error e
    | .ok x => sumObjs x rest

/-- Left fold of `mulObj` from a first value, the body of
`reduce(operator.mul, ·)` once the sequence is nonempty. -/
def prodObjs : Obj → List Obj → Except Err Obj
  | acc, [] => .ok acc
  | acc, v :: rest =>
    match mulObj acc v with
    | .error e => .error e
    | .ok x => prodObjs x rest

/-- Sequential keyed insertion, the body of `dict.update(zip(…))`;
an unhashable key raises `TypeError` when it is reached. -/
def dictInsertAll : List (Obj × Obj) → List (Obj × Obj) → Except Err (List (Obj × Obj))
  | m, [] => .ok m
  | m, (k, v) :: ps =>
    if hashable k then dictInsertAll (dictSet m k v) ps else .error .typeError

/-- Model of the primitive callables installed by `Program.__init__`.
`+` is `sum(args)` (so it starts from the int 0); `-` is
`args[0] - sum(args[1:])` (`IndexError` on no arguments); `*` is
`reduce(operator.mul, args)` (`TypeError` on no arguments, from `reduce`
over an empty sequence with no initial value); `/` is
`args[0] / reduce(operator.mul, args[1:])` (`IndexError` on no
arguments, `TypeError` on exactly one, because the reduced rest is then
empty); the two-argument operators raise `TypeError` at any other
arity; `print` appends the display text to the session buffer and
returns `None`. -/
def applyPrim (p : Prim) (vs : List Obj) (st : St) : Except Err (Obj × St) :=
  match p, vs with
  | .add, _ =>
    match sumObjs (.int 0) vs with
    | .error e => .error e
    | .ok v => .ok (v, st)
  | .sub, [] => .error .indexError
  | .sub, a :: rest =>
    match sumObjs (.int 0) rest with
    | .error e => .error e
    | .ok s =>
      match subObj a s with
      | .error e => .error e
      | .ok v => .ok (v, st)
  | .mul, [] => .error .typeError
  | .mul, a :: rest =>
    match prodObjs a rest with
    | .error e => .error e
    | .ok v => .ok (v, st)
  | .div, [] => .error .indexError
  | .div, [_] => .error .typeError
  | .div, a :: b :: rest =>
    match prodObjs b rest with
    | .error e => .error e
    | .ok d =>
      match divObj a d with
      | .error e => .error e
      | .ok v => .ok (v, st)
  | .lt, [a, b] =>
    match ltObj a b with
    | .error e => .error e
    | .ok v => .ok (v, st)
  | .lt, _ => .error .typeError
  | .gt, [a, b] =>
    match ltObj b a with
    | .error e => .error e
    | .ok v => .ok (v, st)
  | .gt, _ => .error .typeError
  | .eq, [a, b] => .ok (.bool (pyEq a b), st)
  | .eq, _ => .error .typeError
  | .car, [x] =>
    match pyGetItem x 0 with
    | .error e => .error e
    | .ok v => .ok (v, st)
  | .car, _ => .error .typeError
  | .cdr, [.list xs] => .ok (.list xs.tail, st)
  | .cdr, [.str s] =>
    .ok (.list ((s.toList.drop 1).map (fun c => Obj.str ⟨[c]⟩)), st)
  | .cdr, [_] => .error .typeError
  | .cdr, _ => .error .typeError
  | .cons, [x, .list ys] => .ok (.list (x :: ys), st)
  | .cons, [x, y] => .ok (.list [x, y], st)
  | .cons, _ => .error .typeError
  | .print, [x] => .ok (.none, { st with out := st.out ++ [renderStr x] })
  | .print, _ => .error .typeError

mutual

/-- Model of expression evaluation, fuel-indexed.  `Atom.eval` and
`List.eval` are the only `eval` methods; calling `.eval` on a plain
value (possible only for lists built at runtime) is Python's
`AttributeError`. -/
def evalObj : Nat → Obj → Nat → St → Except Err (Obj × St)
  | 0, _, _, _ => .error .fuel
  | _ + 1, .atom a, i, st => .ok (atomEval a i st, st)
  | f + 1, .list xs, i, st => evalListE f xs i st
  | _ + 1, _, _, _ => .error .attrError
termination_by structural f => f

/-- Model of `List.eval`: read the last element (`IndexError` on the
empty list), evaluate it to the operator, dispatch on the keyword
strings in source order (`quote`, `atom?`, `define`, `lambda`, `cond`),
and otherwise evaluate all operands left to right and apply the
operator, which must be callable.  In `define`, the assignment
`env[args[0].eval(env)] = args[1].eval(env)` evaluates its right-hand
side before the subscript, and writes into the frame the evaluation was
called with. -/
def evalListE : Nat → List Obj → Nat → St → Except Err (Obj × St)
  | 0, _, _, _ => .error .fuel
  | f + 1, xs, i, st =>
    match xs.getLast? with
    | Option.none => .error .indexError
    | some opE =>
      match evalObj f opE i st with
      | .error e => .error e
      | .ok (op, st0) =>
        let args := xs.dropLast
        if pyEq op (.str "quote") then
          match args with
          | [x] => .ok (x, st0)
          | _ => .error .assertErr
        else if pyEq op (.str "atom?") then
          match args with
          | [x] =>
            match x with
            | .atom _ => .ok (.bool true, st0)
            | _ =>
              match evalObj f x i st0 with
              | .error e => .error e
              | .ok (v, st1) =>
                .ok (.bool (match v with | .list _ => false | _ => true), st1)
          | _ => .error .assertErr
        else if pyEq op (.str "define") then
          match args with
          | [nameE, valE] =>
            match evalObj f valE i st0 with
            | .error e => .error e
            | .ok (v, st1) =>
              match evalObj f nameE i st1 with
              | .error e => .error e
              | .ok (k, st2) =>
                if hashable k then
                  match st2.frames.get? i with
                  | some fr =>
                    .ok (.none, { st2 with
                      frames := st2.frames.set i { fr with entries := dictSet fr.entries k v } })
                  | Option.none => .error .typeError
                else .error .typeError
          | _ => .error .assertErr
        else if pyEq op (.str "lambda") then
          match args with
          | [ps, body] => .ok (.udf ps body i, st0)
          | _ => .error .assertErr
        else if pyEq op (.str "cond") then
          condEval f args i st0
        else
          match evalSeq f args i st0 with
          | .error e => .error e
          | .ok (vals, st1) =>
            match op with
            | .udf ps body ce => applyUdf f ps body ce vals st1
            | .prim pr => applyPrim pr vals st1
            | _ => .error .notCallable
termination_by structural f => f

/-- Model of the `cond` loop: subscript each clause for its test,
evaluate it, and on the first truthy test evaluate and return that
clause's result; with no truthy test return `None`. -/
def condEval : Nat → List Obj → Nat → St → Except Err (Obj × St)
  | 0, _, _, _ => .error .fuel
  | _ + 1, [], _, st => .ok (.none, st)
  | f + 1, t :: rest, i, st =>
    match pyGetItem t 0 with
    | .error e => .error e
    | .ok t0 =>
      match evalObj f t0 i st with
      | .error e => .error e
      | .ok (tv, st1) =>
        if truthy tv then
          match pyGetItem t 1 with
          | .error e => .error e
          | .ok t1 => evalObj f t1 i st1
        else condEval f rest i st1
termination_by structural f => f

/-- Left-to-right evaluation of a list of expressions, threading the
state — the comprehension `[item.eval(env) for item in self[:-1]]` and
also the comprehension over `arg_names` in `Udf.__call__`. -/
def evalSeq : Nat → List Obj → Nat → St → Except Err (List Obj × St)
  | 0, _, _, _ => .error .fuel
  | _ + 1, [], _, st => .ok ([], st)
  | f + 1, x :: xs, i, st =>
    match evalObj f x i st with
    | .error e => .error e
    | .ok (v, st1) =>
      match evalSeq f xs i st1 with
      | .error e => .error e
      | .ok (vs, st2) => .ok (v :: vs, st2)
termination_by structural f => f

/-- Model of `Udf.__call__`: evaluate each formal-parameter expression
in the *captured* environment, build a fresh frame from
`zip(arg_names, args)` chained to the captured environment, and
evaluate the body there.  A non-list parameter expression is not
iterable — `TypeError` (an `Atom` has no `__iter__`). -/
def applyUdf : Nat → Obj → Obj → Nat → List Obj → St → Except Err (Obj × St)
  | 0, _, _, _, _, _ => .error .fuel
  | f + 1, ps, body, ce, vals, st =>
    match ps with
    | .list ns =>
      match evalSeq f ns ce st with
      | .error e => .error e
      | .ok (ks, st1) =>
        match dictInsertAll [] (ks.zip vals) with
        | .error e => .error e
        | .ok entries =>
          evalObj f body st1.frames.length
            { st1 with frames := st1.frames ++ [⟨entries, some ce⟩] }
    | _ => .error .typeError
termination_by structural f => f

end

/-- Root-environment bindings installed by `Program.__init__`, in
source order. -/
def rootEntries : List (Obj × Obj) :=
  [(.str "+", .prim .add), (.str "-", .prim .sub), (.str "*", .prim .mul),
   (.str "/", .prim .div), (.str "<", .prim .lt), (.str ">", .prim .gt),
   (.str "eq?", .prim .eq), (.str "car", .prim .car), (.str "cdr", .prim .cdr),
   (.str "cons", .prim .cons), (.str "print", .prim .print)]

/-- Fresh interpreter state: one root frame holding the primitives, an
empty output buffer. -/
def initSt : St := ⟨[⟨rootEntries, Option.none⟩], []⟩

/-- Parse the first top-level form of a source string and evaluate it in
a fresh root environment, returning the value. -/
def runForm (s : String) : Except Err Obj :=
  match parseTop (tokenize s) with
  | .error e => .error e
  | .ok (e, _) =>
    match evalObj 99 e 0 initSt with
    | .error e2 => .error e2
    | .ok (v, _) => .ok v

/-! ## Claim theorems -/

/-- C1: in the root environment the operand-last arithmetic forms give
the spec's results: `(3 4 +)` evaluates to 7, `(10 2 3 -)` to 5,
`(2 3 4 *)` to 24, and `(24 2 3 /)` to the float 24/6 — the number 4
(Python true division returns a float, and `4.0 == 4`). -/
theorem c1_operand_last_arithmetic :
    runForm "(3 4 +)" = .ok (.int 7) ∧
    runForm "(10 2 3 -)" = .ok (.int 5) ∧
    runForm "(2 3 4 *)" = .ok (.int 24) ∧
    runForm "(24 2 3 /)" = .ok (.real ⟨24, 6⟩) ∧
    pyEq (.real ⟨24, 6⟩) (.int 4) = true :=
  ⟨rfl, rfl, rfl, rfl, rfl⟩

/-- C8: the source `()` parses to the empty `List`, and evaluating the
empty `List` in any environment and any state fails (with Python's
`IndexError` from reading `self[-1]`) rather than returning a value. -/
theorem c8_empty_list_eval_fails :
    parseTop (tokenize "()") = .ok (.list [], []) ∧
    ∀ (f i : Nat) (st : St), evalObj (f + 2) (.list []) i st = .error .indexError := by
  refine ⟨rfl, ?_⟩
  intro f i st
  simp [evalObj, evalListE]

/-- C9: `define` evaluates its name operand, so after `("x" 5 define)`
a second `("x" 6 define)` in the same environment stores the new value
under the key 5 (the current value of `x`): afterwards the Atom `x`
still evaluates to 5 and the root frame maps the key 5 to 6. -/
theorem c9_define_evaluates_name_operand :
    (match evalSeq 99
        [.list [.atom (.str "x"), .atom (.int 5), .atom (.str "define")],
         .list [.atom (.str "x"), .atom (.int 6), .atom (.str "define")]] 0 initSt with
     | .ok (_, st) => (atomEval (.str "x") 0 st, dictGet (entriesOf st 0) (.int 5))
     | .error _ => (.none, Option.none)) = (Obj.int 5, some (Obj.int 6)) := rfl

/-- C10: special-form dispatch compares the *evaluated* operator value
with the keyword strings, so the keywords are not reserved.  First
conjunct, for every environment, operand list and operator expression:
whenever the evaluated operator is Python-unequal to all five keyword
strings, the form is *not* treated as any special form — evaluation
takes the ordinary-application path (operands evaluated left to right,
then the callable check).  The remaining five conjuncts, conversely:
whenever the evaluated operator is the string `"quote"`, `"atom?"`,
`"define"`, `"lambda"` or `"cond"`, evaluation takes exactly that
special form's branch, again for every environment and operand list. -/
theorem c10_keyword_dispatch_on_evaluated_operator :
    (∀ (f : Nat) (opE : Obj) (args : List Obj) (op : Obj) (i : Nat) (st st0 : St),
      evalObj f opE i st = .ok (op, st0) →
      pyEq op (.str "quote") = false →
      pyEq op (.str "atom?") = false →
      pyEq op (.str "define") = false →
      pyEq op (.str "lambda") = false →
      pyEq op (.str "cond") = false →
      evalObj (f + 2) (.list (args ++ [opE])) i st =
        (match evalSeq f args i st0 with
         | .error e => .error e
         | .ok (vals, st1) =>
           match op with
           | .udf ps body ce => applyUdf f ps body ce vals st1
           | .prim pr => applyPrim pr vals st1
           | _ => .error .notCallable)) ∧
    (∀ (f : Nat) (opE : Obj) (args : List Obj) (i : Nat) (st st0 : St),
      evalObj f opE i st = .ok (.str "quote", st0) →
      evalObj (f + 2) (.list (args ++ [opE])) i st =
        (match args with
         | [x] => .ok (x, st0)
         | _ => .error .assertErr)) ∧
    (∀ (f : Nat) (opE : Obj) (args : List Obj) (i : Nat) (st st0 : St),
      evalObj f opE i st = .ok (.str "atom?", st0) →
      evalObj (f + 2) (.list (args ++ [opE])) i st =
        (match args with
         | [x] =>
           match x with
           | .atom _ => .ok (.bool true, st0)
           | _ =>
             match evalObj f x i st0 with
             | .error e => .error e
             | .ok (v, st1) =>
               .ok (.bool (match v with | .list _ => false | _ => true), st1)
         | _ => .error .assertErr)) ∧
    (∀ (f : Nat) (opE : Obj) (args : List Obj) (i : Nat) (st st0 : St),
      evalObj f opE i st = .ok (.str "define", st0) →
      evalObj (f + 2) (.list (args ++ [opE])) i st =
        (match args with
         | [nameE, valE] =>
           match evalObj f valE i st0 with
           | .error e => .error e
           | .ok (v, st1) =>
             match evalObj f nameE i st1 with
             | .error e => .error e
             | .ok (k, st2) =>
               if hashable k then
                 match st2.frames.get? i with
                 | some fr =>
                   .ok (.none, { st2 with
                     frames := st2.frames.set i
                       { fr with entries := dictSet fr.entries k v } })
                 | Option.none => .error .typeError
               else .error .typeError
         | _ => .error .assertErr)) ∧
    (∀ (f : Nat) (opE : Obj) (args : List Obj) (i : Nat) (st st0 : St),
      evalObj f opE i st = .ok (.str "lambda", st0) →
      evalObj (f + 2) (.list (args ++ [opE])) i st =
        (match args with
         | [ps, body] => .ok (.udf ps body i, st0)
         | _ => .error .assertErr)) ∧
    (∀ (f : Nat) (opE : Obj) (args : List Obj) (i : Nat) (st st0 : St),
      evalObj f opE i st = .ok (.str "cond", st0) →
      evalObj (f + 2) (.list (args ++ [opE])) i st = condEval f args i st0) := by
  refine ⟨?_, ?_, ?_, ?_, ?_, ?_⟩
  · intro f opE args op i st st0 hop h1 h2 h3 h4 h5
    simp [evalObj, evalListE, List.getLast?_concat, List.dropLast_concat,
      hop, h1, h2, h3, h4, h5]
  · intro f opE args i st st0 hop
    simp [evalObj, evalListE, List.getLast?_concat, List.dropLast_concat, hop, pyEq]
  · intro f opE args i st st0 hop
    simp [evalObj, evalListE, List.getLast?_concat, List.dropLast_concat, hop, pyEq]
  · intro f opE args i st st0 hop
    simp [evalObj, evalListE, List.getLast?_concat, List.dropLast_concat, hop, pyEq]
  · intro f opE args i st st0 hop
    simp [evalObj, evalListE, List.getLast?_concat, List.dropLast_concat, hop, pyEq]
  · intro f opE args i st st0 hop
    simp [evalObj, evalListE, List.getLast?_concat, List.dropLast_concat, hop, pyEq]

/-- Witness for C10 at concrete inputs, exercising both directions: in
an environment binding `quote` to 42, `(1 quote)` falls through to
application and fails on the non-callable 42; in the fresh root
environment each keyword symbol is unbound and so evaluates to its own
string, making `(1 quote)` quote the Atom 1, `((1 9) cond)` run the
conditional to 9, and `(ps body lambda)` build the closure. -/
theorem c10_keyword_dispatch_witness :
    (evalObj 5 (.list [.atom (.int 1), .atom (.str "quote")]) 0
      ⟨[⟨[(.str "quote", .int 42)], Option.none⟩], []⟩ = .error .notCallable) ∧
    (evalObj 5 (.list [.atom (.int 1), .atom (.str "quote")]) 0 initSt =
      .ok (.atom (.int 1), initSt)) ∧
    (evalObj 5 (.list [.list [.atom (.int 1), .atom (.int 9)], .atom (.str "cond")])
      0 initSt = .ok (.int 9, initSt)) ∧
    (evalObj 5 (.list [.atom (.str "p"), .atom (.str "b"), .atom (.str "lambda")])
      0 initSt = .ok (.udf (.atom (.str "p")) (.atom (.str "b")) 0, initSt)) := by
  obtain ⟨happ, hq, _, _, hl, hc⟩ := c10_keyword_dispatch_on_evaluated_operator
  refine ⟨?_, ?_, ?_, ?_⟩
  · exact (happ 3 (.atom (.str "quote")) [.atom (.int 1)] (.int 42) 0
      ⟨[⟨[(.str "quote", .int 42)], Option.none⟩], []⟩
      ⟨[⟨[(.str "quote", .int 42)], Option.none⟩], []⟩
      rfl rfl rfl rfl rfl rfl).trans rfl
  · exact (hq 3 (.atom (.str "quote")) [.atom (.int 1)] 0 initSt initSt rfl).trans rfl
  · exact (hc 3 (.atom (.str "cond")) [.list [.atom (.int 1), .atom (.int 9)]] 0
      initSt initSt rfl).trans rfl
  · exact (hl 3 (.atom (.str "lambda")) [.atom (.str "p"), .atom (.str "b")] 0
      initSt initSt rfl).trans rfl

/-- C5: the `define` special form writes only into the frame the
evaluation was called with and returns no value.  Given the evaluation
outcomes of the operator position (the string `"define"`), the value
operand and the name operand, the whole form evaluates to `None` and the
resulting store differs from the post-operand store only at the current
frame `i`: every other frame — in particular every outer frame of the
chain, even one already binding the same symbol — is byte-for-byte
unchanged. -/
theorem c5_define_writes_current_frame_only
    (f : Nat) (opE nameE valE : Obj) (i : Nat) (st st0 st1 st2 : St)
    (v k : Obj) (fr : Frame)
    (hop : evalObj f opE i st = .ok (.str "define", st0))
    (hval : evalObj f valE i st0 = .ok (v, st1))
    (hname : evalObj f nameE i st1 = .ok (k, st2))
    (hk : hashable k = true)
    (hfr : st2.frames[i]? = some fr) :
    evalObj (f + 2) (.list [nameE, valE, opE]) i st = .ok (.none,
      { st2 with frames := st2.frames.set i { fr with entries := dictSet fr.entries k v } }) ∧
    ∀ j : Nat, j ≠ i →
      (st2.frames.set i { fr with entries := dictSet fr.entries k v })[j]? =
        st2.frames[j]? := by
  constructor
  · simp [evalObj, evalListE, hop, hval, hname, hk, hfr, pyEq]
  · intro j hj
    exact List.getElem?_set_ne (fun h => hj h.symm)

/-- Witness for C5 at a concrete input: a two-frame chain whose outer
frame binds `x` to 1 and whose current frame binds only `z`.  Defining
`x` as 5 writes into the current frame (under the key 1, the evaluated
name — the C9 quirk) and leaves the outer frame, including its `x`
binding, untouched. -/
theorem c5_define_witness :
    evalObj 5 (.list [.atom (.str "x"), .atom (.int 5), .atom (.str "define")]) 1
      ⟨[⟨[(.str "x", .int 1)], Option.none⟩, ⟨[(.str "z", .int 0)], some 0⟩], []⟩ =
      .ok (.none,
        ⟨[⟨[(.str "x", .int 1)], Option.none⟩,
          ⟨[(.str "z", .int 0), (.int 1, .int 5)], some 0⟩], []⟩) ∧
    ([⟨[(.str "x", .int 1)], Option.none⟩,
      ⟨[(.str "z", .int 0), (.int 1, .int 5)], some 0⟩] : List Frame)[0]? =
      some ⟨[(.str "x", .int 1)], Option.none⟩ := by
  have h := c5_define_writes_current_frame_only 3 (.atom (.str "define"))
    (.atom (.str "x")) (.atom (.int 5)) 1
    ⟨[⟨[(.str "x", .int 1)], Option.none⟩, ⟨[(.str "z", .int 0)], some 0⟩], []⟩
    ⟨[⟨[(.str "x", .int 1)], Option.none⟩, ⟨[(.str "z", .int 0)], some 0⟩], []⟩
    ⟨[⟨[(.str "x", .int 1)], Option.none⟩, ⟨[(.str "z", .int 0)], some 0⟩], []⟩
    ⟨[⟨[(.str "x", .int 1)], Option.none⟩, ⟨[(.str "z", .int 0)], some 0⟩], []⟩
    (.int 5) (.int 1) ⟨[(.str "z", .int 0)], some 0⟩ rfl rfl rfl rfl rfl
  exact ⟨h.1, h.2 0 (by decide)⟩

/-- C6: calling a closure whose parameter expression is a list evaluates
each formal in the captured environment, pairs formals with actuals by
`zip` (so excess formals stay unbound and excess actuals are dropped),
installs the pairs in a fresh frame chained to the captured environment,
and the whole call is exactly the evaluation of the body in that frame —
no arity check anywhere. -/
theorem c6_closure_call_zip_binding
    (f : Nat) (ns : List Obj) (body : Obj) (ce : Nat) (vals ks : List Obj)
    (st st1 : St) (entries : List (Obj × Obj))
    (hns : evalSeq f ns ce st = .ok (ks, st1))
    (hz : dictInsertAll [] (ks.zip vals) = .ok entries) :
    applyUdf (f + 1) (.list ns) body ce vals st =
      evalObj f body st1.frames.length
        { st1 with frames := st1.frames ++ [⟨entries, some ce⟩] } := by
  simp [applyUdf, hns, hz]

/-- Witness for C6 at a concrete input: a closure with formals `(a b)`
called with the single actual 5 — the zip drops nothing here but leaves
`b` unbound — still evaluates its body `a`, which reads 5 from the fresh
frame. -/
theorem c6_closure_call_witness :
    applyUdf 4 (.list [.atom (.str "a"), .atom (.str "b")]) (.atom (.str "a")) 0
      [.int 5] initSt =
      .ok (.int 5, ⟨[⟨rootEntries, Option.none⟩, ⟨[(.str "a", .int 5)], some 0⟩], []⟩) := by
  have h := c6_closure_call_zip_binding 3 [.atom (.str "a"), .atom (.str "b")]
    (.atom (.str "a")) 0 [.int 5] [.str "a", .str "b"] initSt initSt
    [(.str "a", .int 5)] rfl rfl
  exact h.trans rfl

/-- Validity of a numeric object: ints and bools always, floats when
their denominator is positive (which every float the interpreter builds
satisfies, by `mkFloat`). -/
def numericOk : Obj → Bool
  | .int _ => true
  | .bool _ => true
  | .real r => decide (0 < r.den)
  | _ => false

/-- Rational value of a numeric object. -/
def objRat (o : Obj) : Option Rat := (numPair o).map (fun p => (p.1 : Rat) / (p.2 : Rat))

/-- Rational value, defaulting to 0 on non-numbers. -/
def ratOf (o : Obj) : Rat := (objRat o).getD 0

theorem numericOk_spec (o : Obj) (h : numericOk o = true) :
    ∃ p : Int × Int, numPair o = some p ∧ 0 < p.2 ∧
      ratOf o = (p.1 : Rat) / (p.2 : Rat) ∧ (isReal o = false → p.2 = 1) := by
  cases o with
  | int n => exact ⟨(n, 1), rfl, one_pos, by simp [ratOf, objRat, numPair], fun _ => rfl⟩
  | bool b =>
    exact ⟨(if b then 1 else 0, 1), rfl, one_pos,
      by simp [ratOf, objRat, numPair], fun _ => rfl⟩
  | real r =>
    refine ⟨(r.num, r.den), rfl, ?_, by simp [ratOf, objRat, numPair], ?_⟩
    · simpa [numericOk] using h
    · intro hf; simp [isReal] at hf
  | atom a => simp [numericOk] at h
  | list xs => simp [numericOk] at h
  | str s => simp [numericOk] at h
  | none => simp [numericOk] at h
  | udf a b e => simp [numericOk] at h
  | prim p => simp [numericOk] at h

theorem mulObj_spec (a b : Obj) (ha : numericOk a = true) (hb : numericOk b = true) :
    ∃ c, mulObj a b = .ok c ∧ numericOk c = true ∧ ratOf c = ratOf a * ratOf b := by
  obtain ⟨p, hpa, hp2, hpv, hp1⟩ := numericOk_spec a ha
  obtain ⟨q, hqa, hq2, hqv, hq1⟩ := numericOk_spec b hb
  by_cases hr : (isReal a || isReal b) = true
  · refine ⟨.real (mkFloat (p.1 * q.1) (p.2 * q.2)), ?_, ?_, ?_⟩
    · simp [mulObj, hpa, hqa, hr]
    · have hd : (0 : Int) < p.2 * q.2 := mul_pos hp2 hq2
      simp [mkFloat, numericOk, not_lt.mpr (le_of_lt hd), hd]
    · have hd : (0 : Int) < p.2 * q.2 := mul_pos hp2 hq2
      rw [hpv, hqv]
      simp [mkFloat, not_lt.mpr (le_of_lt hd), ratOf, objRat, numPair, div_mul_div_comm]
  · rw [Bool.or_eq_true] at hr
    push_neg at hr
    obtain ⟨hra, hrb⟩ := hr
    have hp1v := hp1 (by simpa using hra)
    have hq1v := hq1 (by simpa using hrb)
    refine ⟨.int (p.1 * q.1), ?_, rfl, ?_⟩
    · simp [mulObj, hpa, hqa, Bool.eq_false_iff.mp (by simpa using hra),
        Bool.eq_false_iff.mp (by simpa using hrb)]
    · rw [hpv, hqv, hp1v, hq1v]
      simp [ratOf, objRat, numPair]
      try push_cast
      try ring

theorem prodObjs_spec (rest : List Obj) : ∀ acc : Obj, numericOk acc = true →
    (∀ x ∈ rest, numericOk x = true) →
    ∃ c, prodObjs acc rest = .ok c ∧ numericOk c = true ∧
      ratOf c = ratOf acc * (rest.map ratOf).prod := by
  induction rest with
  | nil => intro acc ha _; exact ⟨acc, rfl, ha, by simp⟩
  | cons v vs ih =>
    intro acc ha hall
    obtain ⟨c, hc, hcok, hcv⟩ := mulObj_spec acc v ha (hall v (by simp))
    obtain ⟨d, hd, hdok, hdv⟩ := ih c hcok (fun x hx => hall x (by simp [hx]))
    refine ⟨d, ?_, hdok, ?_⟩
    · simp [prodObjs, hc, hd]
    · rw [hdv, hcv]; simp [mul_assoc]

theorem divObj_spec (a b : Obj) (ha : numericOk a = true) (hb : numericOk b = true)
    (hbne : ratOf b ≠ 0) :
    ∃ c, divObj a b = .ok c ∧ isReal c = true ∧
      objRat c = some (ratOf a / ratOf b) := by
  obtain ⟨p, hpa, hp2, hpv, _⟩ := numericOk_spec a ha
  obtain ⟨q, hqa, hq2, hqv, _⟩ := numericOk_spec b hb
  have hq1 : q.1 ≠ 0 := by
    intro h0
    apply hbne
    rw [hqv, h0]
    simp
  refine ⟨.real (mkFloat (p.1 * q.2) (p.2 * q.1)), ?_, ?_, ?_⟩
  · simp [divObj, hpa, hqa, hq1]
  · by_cases hs : p.2 * q.1 < 0 <;> simp [mkFloat, hs, isReal]
  · have hp2r : ((p.2 : Rat)) ≠ 0 := by positivity
    have hq2r : ((q.2 : Rat)) ≠ 0 := by positivity
    have hq1r : ((q.1 : Rat)) ≠ 0 := Int.cast_ne_zero.mpr hq1
    rw [hpv, hqv]
    by_cases hs : p.2 * q.1 < 0 <;>
      · simp [mkFloat, hs, objRat, numPair]
        try field_simp
        try ring

/-- C7 counterexample: applied to the single numeric argument 4, the
`/` primitive does not return 4 — `reduce(operator.mul, args[1:])` over
the empty rest raises `TypeError`. -/
theorem c7_single_arg_div_raises :
    applyPrim .div [.int 4] initSt = .error .typeError := rfl

/-- C7 as amended: the `/` primitive requires at least two arguments.
With two or more valid numeric arguments whose rest-product is nonzero
it returns a float equal to the first argument divided by the product of
the rest, leaving the state unchanged; applied to exactly one argument
it always raises `TypeError` (empty `reduce` with no initial value). -/
theorem c7_div_first_over_product_of_rest (a b : Obj) (rest : List Obj) (st : St)
    (hall : (a :: b :: rest).all numericOk = true)
    (hne : ((b :: rest).map ratOf).prod ≠ 0) :
    (applyPrim .div (a :: b :: rest) st).map (fun p => objRat p.1) =
      .ok (some (ratOf a / ((b :: rest).map ratOf).prod)) ∧
    (applyPrim .div (a :: b :: rest) st).map (fun p => (isReal p.1, p.2)) =
      .ok (true, st) ∧
    ∀ (x : Obj) (st2 : St), applyPrim .div [x] st2 = .error .typeError := by
  simp only [List.all_cons, Bool.and_eq_true] at hall
  obtain ⟨haok, hbok, hrok⟩ := hall
  obtain ⟨c, hc, hcok, hcv⟩ := prodObjs_spec rest b hbok (by
    intro x hx
    exact (List.all_eq_true.mp hrok) x hx)
  have hcne : ratOf c ≠ 0 := by
    rw [hcv]
    simpa using hne
  obtain ⟨d, hd, hdreal, hdv⟩ := divObj_spec a c haok hcok hcne
  refine ⟨?_, ?_, fun x st2 => rfl⟩
  · simp [applyPrim, hc, hd, hdv, hcv, Except.map]
  · simp [applyPrim, hc, hd, hdreal, Except.map]

/-- Witness for C7's amended theorem at a concrete input: `/` on
`[10, 5]` returns a float whose value is 10/5 = 2 with the state
untouched. -/
theorem c7_div_witness :
    (applyPrim .div [.int 10, .int 5] initSt).map (fun p => objRat p.1) =
      .ok (some (ratOf (.int 10) / (([.int 5] : List Obj).map ratOf).prod)) ∧
    applyPrim .div [.int 7] initSt = .error .typeError := by
  have h := c7_div_first_over_product_of_rest (.int 10) (.int 5) [] initSt
    (by decide) (by simp [ratOf, objRat, numPair])
  exact ⟨h.1, h.2.2 (.int 7) initSt⟩

/-- Frame indices along the outer chain from `i`, walked with the same
fuel discipline as `findEnv`. -/
def chainList (st : St) : Nat → Nat → List Nat
  | 0, i => [i]
  | f + 1, i =>
    i :: (match outerOf st i with
         | Option.none => []
         | some j => chainList st f j)

theorem findEnv_mem_chain (st : St) : ∀ (f i : Nat) (s : String),
    findEnv st f i s ∈ chainList st f i := by
  intro f
  induction f with
  | zero => intro i s; simp [findEnv, chainList]
  | succ f ih =>
    intro i s
    rw [findEnv, chainList]
    cases ho : outerOf st i with
    | none => simp
    | some j =>
      by_cases h1 : (entriesOf st j).isEmpty
      · simp [h1]
      · by_cases h2 : (dictGet (entriesOf st i) (.str s)).isSome
        · simp [h1, h2]
        · simpa [h1, h2] using Or.inr (ih j s)

/-- C2: for every symbol Atom and every environment (any frame index in
any store), if no frame along the outer chain binds the symbol then
evaluation returns the symbol's own text — and `Atom.eval` is a total
function, so it never raises. -/
theorem c2_unbound_symbol_evaluates_to_itself (s : String) (i : Nat) (st : St)
    (h : (chainList st (i + 1) i).all
        (fun j => (dictGet (entriesOf st j) (.str s)).isNone) = true) :
    atomEval (.str s) i st = .str s := by
  have hm := findEnv_mem_chain st (i + 1) i s
  have hnone := (List.all_eq_true.mp h) _ hm
  rw [Option.isNone_iff_eq_none] at hnone
  by_cases he : (entriesOf st i).isEmpty <;> simp [atomEval, he, hnone]

/-- Witness for C2 at a concrete input: the symbol `zzz` is bound
nowhere in the fresh root environment and evaluates to itself. -/
theorem c2_unbound_symbol_witness : atomEval (.str "zzz") 0 initSt = .str "zzz" :=
  c2_unbound_symbol_evaluates_to_itself "zzz" 0 initSt (by decide)

/-- Test for a parse outcome being a Python `SyntaxError`. -/
def isSynErr : Except Err (Obj × List Tok) → Bool
  | .error (.synErr _) => true
  | _ => false

/-- C3 counterexample: on the queue holding only the single token `(`,
parse fails with `IndexError` (the loop peeks `tokens[0]` on an empty
deque before the emptiness check can run) — not with a Syntax error as
the claim states. -/
theorem c3_single_open_paren_counterexample :
    parseTop [['(']] = .error .indexError ∧ isSynErr (parseTop [['(']]) = false :=
  ⟨rfl, rfl⟩

theorem parseLoop_exhaust : ∀ (ts : List Tok),
    (∀ t ∈ ts, t ≠ ['('] ∧ t ≠ [')']) → ∀ f : Nat, 2 * ts.length + 2 ≤ f →
    parseLoop f ts =
      .error (if ts.isEmpty then Err.indexError else Err.synErr "Missing )") := by
  intro ts
  induction ts with
  | nil =>
    intro _ f hf
    match f, hf with
    | g + 1, _ => simp [parseLoop]
  | cons t rest ih =>
    intro h f hf
    have ht := h t (by simp)
    match f, hf with
    | g + 1, hf =>
      have hg : 2 * rest.length + 2 ≤ g := by
        simp only [List.length_cons] at hf; omega
      have hT : parseT g (t :: rest) = .ok (.atom (mkAtom t), rest) := by
        match g, hg with
        | g2 + 1, _ => simp [parseT, ht.1, ht.2]
      rw [parseLoop]
      simp only [ht.2, if_false, hT]
      cases rest with
      | nil => simp
      | cons r rs =>
        have := ih (fun x hx => h x (by simp [hx])) g hg
        simp [this]

/-- C3 as amended: when parse meets `(` and the rest of the queue are
plain atom tokens with the matching `)` never appearing, it fails — but
the kind of failure depends on where the queue ends: with nothing after
the `(` the empty-queue peek raises `IndexError`, and only once at
least one child has been parsed does the emptiness check raise the
`Missing )` Syntax error. -/
theorem c3_missing_close_paren_failures (ts : List Tok)
    (h : ∀ t ∈ ts, t ≠ ['('] ∧ t ≠ [')']) :
    parseTop (['('] :: ts) =
      .error (if ts.isEmpty then Err.indexError else Err.synErr "Missing )") := by
  have hlen : 2 * (['('] :: ts).length + 2 = (2 * ts.length + 3) + 1 := by
    simp only [List.length_cons]; omega
  rw [parseTop, hlen, parseT]
  simp only [if_true, reduceIte]
  have := parseLoop_exhaust ts h (2 * ts.length + 3) (by omega)
  simp [this]

/-- Witness for C3's amended theorem at concrete inputs: the queue
`( x` fails with the `Missing )` Syntax error, while the bare `(`
fails with `IndexError`. -/
theorem c3_missing_close_paren_witness :
    parseTop [['('], ['x']] = .error (.synErr "Missing )") ∧
    parseTop [['(']] = .error .indexError := by
  have h1 := c3_missing_close_paren_failures [['x']] (by decide)
  have h2 := c3_missing_close_paren_failures [] (by decide)
  simp at h1 h2
  exact ⟨h1, h2⟩

/-- The one-character string holding the quote mark. -/
def qStr : String := ⟨[qc]⟩

/-- Token text of an atom's rendering (`str(self.x)`). -/
def atomTok : AtomVal → Tok
  | .int n => intRender n
  | .str s => s.toList

mutual

/-- Size measure on objects, for induction over the nested type. -/
def osz : Obj → Nat
  | .list xs => oszL xs + 1
  | _ => 1

/-- Size measure on object lists. -/
def oszL : List Obj → Nat
  | [] => 1
  | x :: xs => osz x + oszL xs + 1

end

mutual

/-- Token sequence produced by tokenizing the rendering of a
well-formed tree: `List.__str__` contributes a quote-mark token before
every parenthesis group. -/
def rToks : Obj → List Tok
  | .atom a => [atomTok a]
  | .list xs => [qc] :: ['('] :: rToksList xs ++ [[')']]
  | _ => []

/-- Concatenated token sequences of rendered elements. -/
def rToksList : List Obj → List Tok
  | [] => []
  | x :: xs => rToks x ++ rToksList xs

end

/-- Tokens of a rendered tree without the leading quote mark (for a
list, exactly the tokens remaining after the re-parse consumes the
quote-mark atom). -/
def rpToks : Obj → List Tok
  | .atom a => [atomTok a]
  | .list xs => ['('] :: rToksList xs ++ [[')']]
  | _ => []

mutual

/-- The tree that re-parsing a rendered tree's parenthesis group yields:
equal to the original except that a quote-mark atom is inserted before
every nested list (because each nested list renders with its own
leading quote mark). -/
def reEx : Obj → Obj
  | .atom a => .atom a
  | .list xs => .list (reExList xs)
  | o => o

/-- Element lists after re-parsing: nested lists gain a preceding
quote-mark atom. -/
def reExList : List Obj → List Obj
  | [] => []
  | x :: xs =>
    (match x with
     | .list _ => [Obj.atom (.str qStr), reEx x]
     | _ => [reEx x]) ++ reExList xs

end

mutual

/-- Well-formedness of a tree freshly produced by `parse ∘ tokenize`:
every atom either holds an integer or holds a string that is a clean
token (nonempty, no whitespace or parentheses) failing integer parse,
and only atoms and lists occur. -/
def wfT : Obj → Bool
  | .atom (.int _) => true
  | .atom (.str s) => wfTok s.toList && (intParse s.toList).isNone
  | .list xs => wfTList xs
  | _ => false

/-- Well-formedness of every element. -/
def wfTList : List Obj → Bool
  | [] => true
  | x :: xs => wfT x && wfTList xs

end

/-- Tokens `tokenize` can emit: a parenthesis or a clean atom token. -/
def goodTok (t : Tok) : Bool := t == ['('] || t == [')'] || wfTok t

theorem digChar_isDig : ∀ d, d < 10 → isDig (digChar d) = true := by decide

theorem digChar_digVal : ∀ d, d < 10 → digVal (digChar d) = d := by decide

theorem natDigsF_spec : ∀ f n, n < f →
    natDigsF f n ≠ [] ∧ (natDigsF f n).all isDig = true ∧
    ∀ A : Nat, (natDigsF f n).foldl (fun a c => a * 10 + digVal c) A =
      A * 10 ^ (natDigsF f n).length + n := by
  intro f
  induction f with
  | zero => intro n h; omega
  | succ f ih =>
    intro n h
    by_cases h10 : n < 10
    · refine ⟨by simp [natDigsF, h10], by simp [natDigsF, h10, digChar_isDig n h10], ?_⟩
      intro A
      simp [natDigsF, h10, digChar_digVal n h10]
    · have hn0 : n / 10 < f := by
        have := Nat.div_lt_self (by omega : 0 < n) (by omega : 1 < 10)
        omega
      obtain ⟨hne, hall, hfold⟩ := ih (n / 10) hn0
      have hmod : n % 10 < 10 := Nat.mod_lt _ (by omega)
      refine ⟨by simp [natDigsF, h10], ?_, ?_⟩
      · simp [natDigsF, h10, List.all_append, hall, digChar_isDig _ hmod]
      · intro A
        rw [natDigsF]
        simp only [h10, if_false, reduceIte, List.foldl_append, List.length_append,
          List.foldl_cons, List.foldl_nil, List.length_cons, List.length_nil]
        rw [hfold A, digChar_digVal _ hmod]
        have hdm : n / 10 * 10 + n % 10 = n := by omega
        generalize (natDigsF f (n / 10)).length = L
        rw [pow_succ]
        generalize (10 : Nat) ^ L = B
        linarith [hdm]

theorem parseDigits_natDigs (n : Nat) : parseDigits (natDigs n) = some n := by
  obtain ⟨hne, hall, hfold⟩ := natDigsF_spec (n + 1) n (by omega)
  rw [natDigs, parseDigits]
  simp only [hne, hall, ne_eq, not_false_iff, Bool.and_self, if_true, reduceIte,
    decide_eq_true_eq]
  rw [hfold 0]
  simp

theorem intParse_digits (cs : List Char) (hne : cs ≠ []) (hall : cs.all isDig = true) :
    intParse cs = (parseDigits cs).map (fun n => (n : Int)) := by
  cases cs with
  | nil => exact absurd rfl hne
  | cons c cs2 =>
    have hd : isDig c = true := by
      have := List.all_eq_true.mp hall c (by simp)
      simpa using this
    have hp : c ≠ '+' := by intro h; rw [h] at hd; exact absurd hd (by decide)
    have hm : c ≠ '-' := by intro h; rw [h] at hd; exact absurd hd (by decide)
    rw [intParse.eq_def]
    split
    next heq => rw [List.cons.injEq] at heq; exact absurd heq.1 hp
    next heq => rw [List.cons.injEq] at heq; exact absurd heq.1 hm
    next => rfl

theorem intParse_intRender (n : Int) : intParse (intRender n) = some n := by
  by_cases hn : n < 0
  · rw [intRender, if_pos hn, natDigs, intParse]
    rw [show natDigsF (n.natAbs + 1) n.natAbs = natDigs n.natAbs from rfl]
    rw [parseDigits_natDigs]
    show some (-(n.natAbs : Int)) = some n
    congr 1
    omega
  · rw [intRender, if_neg hn]
    obtain ⟨hne, hall, _⟩ := natDigsF_spec (n.natAbs + 1) n.natAbs (by omega)
    rw [show natDigsF (n.natAbs + 1) n.natAbs = natDigs n.natAbs from rfl] at hne hall
    rw [intParse_digits _ hne hall, parseDigits_natDigs]
    show some ((n.natAbs : Int)) = some n
    congr 1
    omega

theorem mkAtom_intRender (n : Int) : mkAtom (intRender n) = .int n := by
  simp [mkAtom, intParse_intRender]

theorem mkAtom_strTok (s : String) (h : (intParse s.toList).isNone = true) :
    mkAtom s.toList = .str s := by
  rw [Option.isNone_iff_eq_none] at h
  unfold mkAtom
  rw [h]
  cases s
  rfl

theorem isDig_okChar (c : Char) (h : isDig c = true) : okChar c = true := by
  have h1 : 48 ≤ c.toNat ∧ c.toNat ≤ 57 := by
    simpa [isDig, Bool.and_eq_true, decide_eq_true_iff] using h
  have hsp : c ≠ ' ' := by
    intro he; rw [he] at h1; exact absurd h1 (by decide)
  have htb : c ≠ '\t' := by
    intro he; rw [he] at h1; exact absurd h1 (by decide)
  have hcr : c ≠ '\r' := by
    intro he; rw [he] at h1; exact absurd h1 (by decide)
  have hnl : c ≠ '\n' := by
    intro he; rw [he] at h1; exact absurd h1 (by decide)
  have hp1 : c ≠ '(' := by
    intro he; rw [he] at h1; exact absurd h1 (by decide)
  have hp2 : c ≠ ')' := by
    intro he; rw [he] at h1; exact absurd h1 (by decide)
  simp [okChar, Char.isWhitespace, hsp, htb, hcr, hnl, hp1, hp2]

theorem wfTok_intRender (n : Int) : wfTok (intRender n) = true := by
  obtain ⟨hne, hall, _⟩ := natDigsF_spec (n.natAbs + 1) n.natAbs (by omega)
  rw [show natDigsF (n.natAbs + 1) n.natAbs = natDigs n.natAbs from rfl] at hne hall
  have hok : (natDigs n.natAbs).all okChar = true := by
    rw [List.all_eq_true] at hall ⊢
    intro c hc
    exact isDig_okChar c (hall c hc)
  by_cases hn : n < 0
  · simp [wfTok, intRender, hn, List.all_cons, hok]
    decide
  · simp [wfTok, intRender, hn, hne, hok]

theorem okChar_spec (c : Char) (h : okChar c = true) :
    c.isWhitespace = false ∧ c ≠ '(' ∧ c ≠ ')' := by
  have h2 : (c.isWhitespace = false ∧ ¬c = '(') ∧ ¬c = ')' := by simpa [okChar] using h
  exact ⟨h2.1.1, h2.1.2, h2.2⟩

theorem okChar_build (c : Char) (h1 : c.isWhitespace = false) (h2 : c ≠ '(')
    (h3 : c ≠ ')') : okChar c = true := by
  simp [okChar, h1, h2, h3]

theorem expandParens_append (a b : List Char) :
    expandParens (a ++ b) = expandParens a ++ expandParens b := by
  induction a with
  | nil => rfl
  | cons c cs ih =>
    by_cases h1 : c = '('
    · simp [expandParens, h1, ih]
    · by_cases h2 : c = ')' <;> simp [expandParens, h1, h2, ih]

theorem expandParens_clean (w : List Char) (h : ∀ c ∈ w, okChar c = true) :
    expandParens w = w := by
  induction w with
  | nil => rfl
  | cons c cs ih =>
    have hc := okChar_spec c (h c (by simp))
    simp [expandParens, hc.2.1, hc.2.2, ih (fun x hx => h x (by simp [hx]))]

theorem splitWsAux_clean (w : List Char) (hw : ∀ c ∈ w, c.isWhitespace = false) :
    ∀ rest acc, splitWsAux (w ++ rest) acc = splitWsAux rest (acc ++ w) := by
  induction w with
  | nil => intro rest acc; simp
  | cons c cs ih =>
    intro rest acc
    have hc := hw c (by simp)
    rw [List.cons_append, splitWsAux]
    simp only [hc, if_false, Bool.false_eq_true, reduceIte]
    rw [ih (fun x hx => hw x (by simp [hx])) rest (acc ++ [c])]
    simp

theorem splitWsAux_trailing (cs : List Char) : ∀ acc,
    splitWsAux (cs ++ [' ']) acc = splitWsAux cs acc := by
  induction cs with
  | nil =>
    intro acc
    show splitWsAux [' '] acc = splitWsAux [] acc
    rw [splitWsAux, splitWsAux]
    simp [splitWsAux]
  | cons c cs ih =>
    intro acc
    rw [List.cons_append, splitWsAux, splitWsAux]
    by_cases hc : c.isWhitespace <;> simp [hc, ih]

theorem splitWsAux_paren_step (p : Char) (cs acc : List Char)
    (hp : p.isWhitespace = false) :
    splitWsAux (' ' :: p :: ' ' :: cs) acc =
      (if acc = [] then [] else [acc]) ++ [p] :: splitWsAux cs [] := by
  rw [splitWsAux]
  simp only [show (' ').isWhitespace = true from rfl, if_true, reduceIte]
  rw [splitWsAux]
  simp only [hp, Bool.false_eq_true, if_false, reduceIte, List.nil_append]
  rw [splitWsAux]
  simp only [show (' ').isWhitespace = true from rfl, if_true, reduceIte]
  simp

theorem emit_good (acc : List Char) (hacc : ∀ c ∈ acc, okChar c = true) :
    ∀ t ∈ (if acc = [] then ([] : List Tok) else [acc]), goodTok t = true := by
  by_cases h : acc = []
  · simp [h]
  · intro t ht
    rw [if_neg h, List.mem_singleton] at ht
    rw [ht]
    have hall : acc.all okChar = true := List.all_eq_true.mpr hacc
    simp [goodTok, wfTok, h, hall]

theorem tokenize_good_aux (cs : List Char) : ∀ acc, (∀ c ∈ acc, okChar c = true) →
    ∀ t ∈ splitWsAux (expandParens cs) acc, goodTok t = true := by
  induction cs with
  | nil =>
    intro acc hacc t ht
    rw [show expandParens [] = [] from rfl, splitWsAux] at ht
    exact emit_good acc hacc t ht
  | cons c cs ih =>
    intro acc hacc t ht
    by_cases h1 : c = '('
    · subst h1
      rw [show expandParens ('(' :: cs) = ' ' :: '(' :: ' ' :: expandParens cs from rfl,
        splitWsAux_paren_step '(' (expandParens cs) acc (by decide),
        List.mem_append, List.mem_cons] at ht
      rcases ht with ht | ht | ht
      · exact emit_good acc hacc t ht
      · rw [ht]; decide
      · exact ih [] (by simp) t ht
    · by_cases h2 : c = ')'
      · subst h2
        rw [show expandParens (')' :: cs) = ' ' :: ')' :: ' ' :: expandParens cs from rfl,
          splitWsAux_paren_step ')' (expandParens cs) acc (by decide),
          List.mem_append, List.mem_cons] at ht
        rcases ht with ht | ht | ht
        · exact emit_good acc hacc t ht
        · rw [ht]; decide
        · exact ih [] (by simp) t ht
      · have hep : expandParens (c :: cs) = c :: expandParens cs := by
          simp [expandParens, h1, h2]
        rw [hep, splitWsAux] at ht
        by_cases hws : c.isWhitespace
        · simp only [hws, if_true, reduceIte] at ht
          rw [List.mem_append] at ht
          rcases ht with ht | ht
          · exact emit_good acc hacc t ht
          · exact ih [] (by simp) t ht
        · simp only [hws, Bool.false_eq_true, if_false, reduceIte] at ht
          refine ih (acc ++ [c]) ?_ t ht
          intro x hx
          rw [List.mem_append] at hx
          rcases hx with hx | hx
          · exact hacc x hx
          · rw [List.mem_singleton] at hx
            rw [hx]
            exact okChar_build c (by simpa using hws) h1 h2

/-- Every token `tokenize` emits is a parenthesis or a clean atom
token. -/
theorem tokenize_good (s : String) : ∀ t ∈ tokenize s, goodTok t = true :=
  tokenize_good_aux s.toList [] (by simp)

theorem wfT_mkAtom (t : Tok) (hwt : wfTok t = true) : wfT (.atom (mkAtom t)) = true := by
  cases hip : intParse t with
  | some n =>
    simp only [mkAtom.eq_def, hip]
    rfl
  | none =>
    rw [mkAtom.eq_def, hip]
    show wfT (.atom (.str ⟨t⟩)) = true
    have h1 : (String.mk t).toList = t := rfl
    simp only [wfT, h1, hip, hwt, Option.isNone_none, Bool.and_self]

theorem parse_wf : ∀ f : Nat,
    (∀ ts e r, parseT f ts = .ok (e, r) → (∀ t ∈ ts, goodTok t = true) →
      wfT e = true ∧ ∀ t ∈ r, goodTok t = true) ∧
    (∀ ts xs r, parseLoop f ts = .ok (xs, r) → (∀ t ∈ ts, goodTok t = true) →
      wfTList xs = true ∧ ∀ t ∈ r, goodTok t = true) := by
  intro f
  induction f with
  | zero =>
    constructor
    · intro ts e r h
      rw [parseT] at h
      simp at h
    · intro ts xs r h
      rw [parseLoop] at h
      simp at h
  | succ f ih =>
    constructor
    · intro ts e r h hts
      cases ts with
      | nil =>
        rw [parseT] at h
        simp at h
      | cons t ts2 =>
        rw [parseT] at h
        by_cases h1 : t = ['(']
        · rw [if_pos h1] at h
          cases hl : parseLoop f ts2 with
          | error e2 => rw [hl] at h; simp at h
          | ok p =>
            obtain ⟨xs, rest⟩ := p
            rw [hl] at h
            simp at h
            rcases h with ⟨rfl, rfl⟩
            have hts2 : ∀ x ∈ ts2, goodTok x = true := fun x hx => hts x (by simp [hx])
            obtain ⟨hwf, hrest⟩ := ih.2 ts2 xs rest hl hts2
            exact ⟨by simpa [wfT] using hwf, hrest⟩
        · by_cases h2 : t = [')']
          · rw [if_neg h1, if_pos h2] at h
            simp at h
          · rw [if_neg h1, if_neg h2] at h
            simp at h
            rcases h with ⟨rfl, rfl⟩
            refine ⟨?_, fun x hx => hts x (by simp [hx])⟩
            have hg := hts t (by simp)
            have hwt : wfTok t = true := by
              have hb1 : (t == ['(']) = false := beq_eq_false_iff_ne.mpr h1
              have hb2 : (t == [')']) = false := beq_eq_false_iff_ne.mpr h2
              unfold goodTok at hg
              rw [hb1, hb2] at hg
              simpa using hg
            exact wfT_mkAtom t hwt
    · intro ts xs r h hts
      cases ts with
      | nil =>
        rw [parseLoop] at h
        simp at h
      | cons t ts2 =>
        rw [parseLoop] at h
        by_cases h2 : t = [')']
        · rw [if_pos h2] at h
          simp at h
          rcases h with ⟨rfl, rfl⟩
          exact ⟨rfl, fun x hx => hts x (by simp [hx])⟩
        · rw [if_neg h2] at h
          cases hp : parseT f (t :: ts2) with
          | error e2 => rw [hp] at h; simp at h
          | ok p =>
            obtain ⟨child, rest⟩ := p
            rw [hp] at h
            simp only at h
            cases rest with
            | nil => simp at h
            | cons r0 rs =>
              simp only at h
              cases hl : parseLoop f (r0 :: rs) with
              | error e2 => rw [hl] at h; simp at h
              | ok q =>
                obtain ⟨children, rest2⟩ := q
                rw [hl] at h
                simp at h
                rcases h with ⟨rfl, rfl⟩
                obtain ⟨hc, hrest⟩ := ih.1 (t :: ts2) child (r0 :: rs) hp hts
                obtain ⟨hcs, hrest2⟩ := ih.2 (r0 :: rs) children rest2 hl hrest
                exact ⟨by simp [wfTList, hc, hcs], hrest2⟩

theorem parse_consume : ∀ f : Nat,
    (∀ ts e r, parseT f ts = .ok (e, r) → r.length < ts.length) ∧
    (∀ ts xs r, parseLoop f ts = .ok (xs, r) → r.length < ts.length) := by
  intro f
  induction f with
  | zero =>
    constructor
    · intro ts e r h; rw [parseT] at h; simp at h
    · intro ts xs r h; rw [parseLoop] at h; simp at h
  | succ f ih =>
    constructor
    · intro ts e r h
      cases ts with
      | nil => rw [parseT] at h; simp at h
      | cons t ts2 =>
        rw [parseT] at h
        by_cases h1 : t = ['(']
        · rw [if_pos h1] at h
          cases hl : parseLoop f ts2 with
          | error e2 => rw [hl] at h; simp at h
          | ok p =>
            obtain ⟨xs, rest⟩ := p
            rw [hl] at h
            simp at h
            rcases h with ⟨-, rfl⟩
            have := ih.2 ts2 xs rest hl
            simp
            omega
        · by_cases h2 : t = [')']
          · rw [if_neg h1, if_pos h2] at h; simp at h
          · rw [if_neg h1, if_neg h2] at h
            simp at h
            rcases h with ⟨-, rfl⟩
            simp
    · intro ts xs r h
      cases ts with
      | nil => rw [parseLoop] at h; simp at h
      | cons t ts2 =>
        rw [parseLoop] at h
        by_cases h2 : t = [')']
        · rw [if_pos h2] at h
          simp at h
          rcases h with ⟨-, rfl⟩
          simp
        · rw [if_neg h2] at h
          cases hp : parseT f (t :: ts2) with
          | error e2 => rw [hp] at h; simp at h
          | ok p =>
            obtain ⟨child, rest⟩ := p
            rw [hp] at h
            simp only at h
            cases rest with
            | nil => simp at h
            | cons r0 rs =>
              simp only at h
              cases hl : parseLoop f (r0 :: rs) with
              | error e2 => rw [hl] at h; simp at h
              | ok q =>
                obtain ⟨children, rest2⟩ := q
                rw [hl] at h
                simp at h
                rcases h with ⟨-, rfl⟩
                have hA := ih.1 (t :: ts2) child (r0 :: rs) hp
                have hB := ih.2 (r0 :: rs) children rest2 hl
                simp at hA hB ⊢
                omega

theorem parse_fuel : ∀ f : Nat,
    (∀ ts, 2 * ts.length + 2 ≤ f → parseT f ts ≠ .error .fuel) ∧
    (∀ ts, 2 * ts.length + 3 ≤ f → parseLoop f ts ≠ .error .fuel) := by
  intro f
  induction f using Nat.strong_induction_on with
  | _ f ih =>
    constructor
    · intro ts hf
      obtain ⟨g, rfl⟩ : ∃ g, f = g + 1 := ⟨f - 1, by omega⟩
      cases ts with
      | nil => rw [parseT]; simp
      | cons t ts2 =>
        rw [parseT]
        by_cases h1 : t = ['(']
        · rw [if_pos h1]
          have hg : 2 * ts2.length + 3 ≤ g := by
            simp only [List.length_cons] at hf; omega
          have hnl := (ih g (by omega)).2 ts2 hg
          cases hl : parseLoop g ts2 with
          | error e2 =>
            have he2 : e2 ≠ Err.fuel := fun hcon => hnl (by rw [hl, hcon])
            simp [hl, he2]
          | ok p => simp [hl]
        · by_cases h2 : t = [')'] <;> simp [h1, h2]
    · intro ts hf
      obtain ⟨g, rfl⟩ : ∃ g, f = g + 1 := ⟨f - 1, by omega⟩
      cases ts with
      | nil => rw [parseLoop]; simp
      | cons t ts2 =>
        rw [parseLoop]
        by_cases h2 : t = [')']
        · simp [h2]
        · rw [if_neg h2]
          have hgT : 2 * (t :: ts2).length + 2 ≤ g := by
            simp only [List.length_cons] at hf ⊢; omega
          have hTnf := (ih g (by omega)).1 (t :: ts2) hgT
          cases hp : parseT g (t :: ts2) with
          | error e2 =>
            have he2 : e2 ≠ Err.fuel := fun hcon => hTnf (by rw [hp, hcon])
            simp [hp, he2]
          | ok p =>
            obtain ⟨child, rest⟩ := p
            have hcons := (parse_consume g).1 (t :: ts2) child rest hp
            cases rest with
            | nil => simp [hp]
            | cons r0 rs =>
              have hgl : 2 * (r0 :: rs).length + 3 ≤ g := by
                simp only [List.length_cons] at hf hcons ⊢; omega
              have hLnf := (ih g (by omega)).2 (r0 :: rs) hgl
              cases hl : parseLoop g (r0 :: rs) with
              | error e2 =>
                have he2 : e2 ≠ Err.fuel := fun hcon => hLnf (by rw [hl, hcon])
                simp [hp, hl, he2]
              | ok q => simp [hp, hl]

theorem wfTok_spec (t : Tok) (h : wfTok t = true) :
    t ≠ [] ∧ ∀ c ∈ t, okChar c = true := by
  rw [wfTok, Bool.and_eq_true] at h
  exact ⟨by simpa using h.1, fun c hc => List.all_eq_true.mp h.2 c hc⟩

theorem wfTok_ne_parens (t : Tok) (h : wfTok t = true) : t ≠ ['('] ∧ t ≠ [')'] := by
  obtain ⟨hne, hok⟩ := wfTok_spec t h
  constructor
  · intro he
    have h2 := hok '(' (by rw [he]; simp)
    exact absurd h2 (by decide)
  · intro he
    have h2 := hok ')' (by rw [he]; simp)
    exact absurd h2 (by decide)

theorem wfT_atom_parts (s : String) (hw : wfT (.atom (.str s)) = true) :
    wfTok s.toList = true ∧ (intParse s.toList).isNone = true := by
  simpa [wfT, Bool.and_eq_true] using hw

theorem atomTok_wf (a : AtomVal) (hw : wfT (.atom a) = true) :
    wfTok (atomTok a) = true := by
  cases a with
  | int n => exact wfTok_intRender n
  | str s => exact (wfT_atom_parts s hw).1

theorem mkAtom_atomTok (a : AtomVal) (hw : wfT (.atom a) = true) :
    mkAtom (atomTok a) = a := by
  cases a with
  | int n => exact mkAtom_intRender n
  | str s => exact mkAtom_strTok s (wfT_atom_parts s hw).2

theorem renderObj_atom (a : AtomVal) : renderObj (.atom a) = atomTok a := by
  cases a <;> rfl

mutual

theorem renderToks (e : Obj) (hw : wfT e = true) : ∀ rest : List Char,
    splitWsAux (expandParens (renderObj e) ++ ' ' :: rest) [] =
      rToks e ++ splitWsAux rest [] := by
  intro rest
  cases e with
  | atom a =>
    have hwt := atomTok_wf a hw
    obtain ⟨hne, hok⟩ := wfTok_spec _ hwt
    rw [renderObj_atom, expandParens_clean _ hok,
      splitWsAux_clean _ (fun c hc => (okChar_spec c (hok c hc)).1) (' ' :: rest) []]
    rw [List.nil_append, splitWsAux]
    simp only [show (' ').isWhitespace = true from rfl, if_true, reduceIte, hne,
      Bool.false_eq_true, if_false]
    simp [rToks, hne]
  | list xs =>
    have hxs : wfTList xs = true := by simpa [wfT] using hw
    have hexp : expandParens (renderObj (.list xs)) =
        qc :: ' ' :: '(' :: ' ' ::
          (expandParens (renderList xs) ++ (' ' :: ')' :: ' ' :: [])) := by
      rw [show renderObj (.list xs) = qc :: '(' :: (renderList xs ++ [')']) from by
        simp [renderObj]]
      rw [show expandParens (qc :: '(' :: (renderList xs ++ [')'])) =
          qc :: expandParens ('(' :: (renderList xs ++ [')'])) from by
        simp [expandParens, show qc ≠ '(' from by decide, show qc ≠ ')' from by decide]]
      rw [show expandParens ('(' :: (renderList xs ++ [')'])) =
          ' ' :: '(' :: ' ' :: expandParens (renderList xs ++ [')']) from by
        simp [expandParens]]
      rw [expandParens_append]
      rfl
    rw [hexp]
    rw [show (qc :: ' ' :: '(' :: ' ' ::
        (expandParens (renderList xs) ++ (' ' :: ')' :: ' ' :: []))) ++ ' ' :: rest =
        qc :: ' ' :: '(' :: ' ' ::
        (expandParens (renderList xs) ++ ' ' :: (')' :: ' ' :: ' ' :: rest)) from by
      simp]
    rw [splitWsAux]
    simp only [show (qc).isWhitespace = false from rfl, Bool.false_eq_true, if_false,
      reduceIte, List.nil_append]
    rw [splitWsAux_paren_step '(' _ [qc] (by decide)]
    rw [renderToksList xs hxs (')' :: ' ' :: ' ' :: rest)]
    rw [splitWsAux]
    simp only [show (')').isWhitespace = false from rfl, Bool.false_eq_true, if_false,
      reduceIte, List.nil_append]
    rw [splitWsAux]
    simp only [show (' ').isWhitespace = true from rfl, if_true, reduceIte]
    rw [splitWsAux]
    simp only [show (' ').isWhitespace = true from rfl, if_true, reduceIte]
    simp [rToks]
  | int n => simp [wfT] at hw
  | real r => simp [wfT] at hw
  | str s => simp [wfT] at hw
  | bool b => simp [wfT] at hw
  | none => simp [wfT] at hw
  | udf a b c => simp [wfT] at hw
  | prim p => simp [wfT] at hw
termination_by osz e
decreasing_by all_goals (try subst_vars; simp [osz, oszL]; try omega)

theorem renderToksList (xs : List Obj) (hw : wfTList xs = true) :
    ∀ rest : List Char,
    splitWsAux (expandParens (renderList xs) ++ ' ' :: rest) [] =
      rToksList xs ++ splitWsAux rest [] := by
  intro rest
  match xs with
  | [] =>
    rw [show renderList [] = [] from rfl, show expandParens [] = [] from rfl,
      List.nil_append, splitWsAux]
    simp [splitWsAux, rToksList]
  | [x] =>
    have hx : wfT x = true := by simpa [wfTList] using hw
    rw [show renderList [x] = renderObj x from rfl, renderToks x hx rest]
    simp [rToksList]
  | x :: y :: ys =>
    have hx : wfT x = true := by
      have := hw
      simp [wfTList, Bool.and_eq_true] at this
      exact this.1
    have hys : wfTList (y :: ys) = true := by
      have := hw
      simp [wfTList, Bool.and_eq_true] at this
      simp [wfTList, Bool.and_eq_true, this.2.1, this.2.2]
    rw [show renderList (x :: y :: ys) = renderObj x ++ ' ' :: renderList (y :: ys)
      from rfl]
    rw [expandParens_append]
    rw [show expandParens (' ' :: renderList (y :: ys)) =
        ' ' :: expandParens (renderList (y :: ys)) from by simp [expandParens]]
    rw [show (expandParens (renderObj x) ++
        ' ' :: expandParens (renderList (y :: ys))) ++ ' ' :: rest =
        expandParens (renderObj x) ++
        ' ' :: (expandParens (renderList (y :: ys)) ++ ' ' :: rest) from by simp]
    rw [renderToks x hx, renderToksList (y :: ys) hys rest]
    simp [rToksList]
termination_by oszL xs
decreasing_by all_goals (try subst_vars; simp [osz, oszL]; try omega)

end

/-- Tokenizing the rendering of a well-formed tree yields exactly its
render-token sequence. -/
theorem tokenize_render (e : Obj) (hw : wfT e = true) :
    tokenize (renderStr e) = rToks e := by
  have h2 := renderToks e hw []
  rw [show (' ' :: ([] : List Char)) = [' '] from rfl, splitWsAux_trailing] at h2
  rw [tokenize, show (renderStr e).toList = renderObj e from rfl, h2]
  simp [splitWsAux]

theorem parseT_atomTok (a : AtomVal) (hw : wfT (.atom a) = true) (f : Nat)
    (rest : List Tok) :
    parseT (f + 1) (atomTok a :: rest) = .ok (.atom a, rest) := by
  obtain ⟨h1, h2⟩ := wfTok_ne_parens _ (atomTok_wf a hw)
  rw [parseT, if_neg h1, if_neg h2, mkAtom_atomTok a hw]

theorem parseLoop_step (F : Nat) (t : Tok) (ts rest : List Tok) (child : Obj)
    (ht : t ≠ [')'])
    (hp : parseT F (t :: ts) = .ok (child, rest))
    (hne : rest ≠ []) :
    parseLoop (F + 1) (t :: ts) =
      (match parseLoop F rest with
       | .error e => .error e
       | .ok (children, rest2) => .ok (child :: children, rest2)) := by
  rw [parseLoop, if_neg ht, hp]
  cases rest with
  | nil => exact absurd rfl hne
  | cons r0 rs => simp only

theorem parseLoop_step_fuel (F : Nat) (t : Tok) (ts : List Tok)
    (ht : t ≠ [')'])
    (hp : parseT F (t :: ts) = .error .fuel) :
    parseLoop (F + 1) (t :: ts) = .error .fuel := by
  rw [parseLoop, if_neg ht, hp]

mutual

theorem reparse (e : Obj) (hw : wfT e = true) : ∀ (f : Nat) (rest : List Tok),
    parseT f (rpToks e ++ rest) = .ok (reEx e, rest) ∨
    parseT f (rpToks e ++ rest) = .error .fuel := by
  intro f rest
  cases e with
  | atom a =>
    cases f with
    | zero => right; rw [parseT]
    | succ f2 =>
      left
      rw [show rpToks (.atom a) ++ rest = atomTok a :: rest from rfl]
      rw [parseT_atomTok a hw f2 rest]
      rfl
  | list xs =>
    have hxs : wfTList xs = true := by simpa [wfT] using hw
    cases f with
    | zero => right; rw [parseT]
    | succ f2 =>
      rw [show rpToks (.list xs) ++ rest =
          ['('] :: (rToksList xs ++ [')'] :: rest) from by simp [rpToks]]
      rw [parseT, if_pos rfl]
      rcases reparseList xs hxs f2 rest with hok | hfu
      · left; rw [hok]; rfl
      · right; rw [hfu]
  | int n => simp [wfT] at hw
  | real r => simp [wfT] at hw
  | str s => simp [wfT] at hw
  | bool b => simp [wfT] at hw
  | none => simp [wfT] at hw
  | udf a b c => simp [wfT] at hw
  | prim p => simp [wfT] at hw
termination_by osz e
decreasing_by all_goals (try subst_vars; simp [osz, oszL]; try omega)

theorem reparseList (xs : List Obj) (hw : wfTList xs = true) :
    ∀ (f : Nat) (rest : List Tok),
    parseLoop f (rToksList xs ++ [')'] :: rest) = .ok (reExList xs, rest) ∨
    parseLoop f (rToksList xs ++ [')'] :: rest) = .error .fuel := by
  intro f rest
  match xs with
  | [] =>
    cases f with
    | zero => right; rw [parseLoop]
    | succ f2 =>
      left
      rw [show rToksList [] ++ [')'] :: rest = [')'] :: rest from rfl]
      rw [parseLoop, if_pos rfl]
      rfl
  | x :: ys =>
    have hpair : wfT x = true ∧ wfTList ys = true := by
      simpa [wfTList, Bool.and_eq_true] using hw
    obtain ⟨hx, hys⟩ := hpair
    cases x with
    | atom a =>
      rw [show rToksList (.atom a :: ys) ++ [')'] :: rest =
          atomTok a :: (rToksList ys ++ [')'] :: rest) from by simp [rToksList, rToks]]
      have hnp := wfTok_ne_parens _ (atomTok_wf a hx)
      cases f with
      | zero => right; rw [parseLoop]
      | succ F =>
        cases F with
        | zero =>
          right
          exact parseLoop_step_fuel 0 _ _ hnp.2 (by rw [parseT])
        | succ F2 =>
          rw [parseLoop_step (F2 + 1) (atomTok a) _ (rToksList ys ++ [')'] :: rest)
            (.atom a) hnp.2 (parseT_atomTok a hx F2 _) (by simp)]
          rcases reparseList ys hys (F2 + 1) rest with hok | hfu
          · left; rw [hok]; rfl
          · right; rw [hfu]
    | list zs =>
      rw [show rToksList (.list zs :: ys) ++ [')'] :: rest =
          [qc] :: (rpToks (.list zs) ++ (rToksList ys ++ [')'] :: rest)) from by
        simp [rToksList, rToks, rpToks]]
      cases f with
      | zero => right; rw [parseLoop]
      | succ F =>
        cases F with
        | zero =>
          right
          exact parseLoop_step_fuel 0 [qc] _ (by decide) (by rw [parseT])
        | succ F2 =>
          have hq : parseT (F2 + 1)
              ([qc] :: (rpToks (.list zs) ++ (rToksList ys ++ [')'] :: rest))) =
              .ok (.atom (.str qStr),
                rpToks (.list zs) ++ (rToksList ys ++ [')'] :: rest)) := by
            rw [parseT, if_neg (by decide), if_neg (by decide)]
            rw [show mkAtom [qc] = .str qStr from rfl]
          rw [parseLoop_step (F2 + 1) [qc] _ _ (.atom (.str qStr)) (by decide) hq
            (by simp [rpToks])]
          cases F2 with
          | zero =>
            right
            rw [show rpToks (.list zs) ++ (rToksList ys ++ [')'] :: rest) =
                ['('] :: ((rToksList zs ++ [[')']]) ++ (rToksList ys ++ [')'] :: rest))
              from by simp [rpToks]]
            rw [parseLoop_step_fuel 0 ['('] _ (by decide) (by rw [parseT])]
          | succ F3 =>
            rcases reparse (.list zs) hx (F3 + 1) (rToksList ys ++ [')'] :: rest)
              with hok1 | hfu1
            · rw [show rpToks (.list zs) ++ (rToksList ys ++ [')'] :: rest) =
                  ['('] :: ((rToksList zs ++ [[')']]) ++ (rToksList ys ++ [')'] :: rest))
                from by simp [rpToks]] at hok1 ⊢
              rw [parseLoop_step (F3 + 1) ['('] _ (rToksList ys ++ [')'] :: rest)
                (reEx (.list zs)) (by decide) hok1 (by simp)]
              rcases reparseList ys hys (F3 + 1) rest with hok2 | hfu2
              · left; rw [hok2]; rfl
              · right; rw [hfu2]
            · right
              rw [show rpToks (.list zs) ++ (rToksList ys ++ [')'] :: rest) =
                  ['('] :: ((rToksList zs ++ [[')']]) ++ (rToksList ys ++ [')'] :: rest))
                from by simp [rpToks]] at hfu1 ⊢
              rw [parseLoop_step_fuel (F3 + 1) ['('] _ (by decide) hfu1]
    | int n => simp [wfT] at hx
    | real r => simp [wfT] at hx
    | str s => simp [wfT] at hx
    | bool b => simp [wfT] at hx
    | none => simp [wfT] at hx
    | udf a b c => simp [wfT] at hx
    | prim p => simp [wfT] at hx
termination_by oszL xs
decreasing_by all_goals (try subst_vars; simp [osz, oszL]; try omega)

end

theorem reparse_top (e : Obj) (hw : wfT e = true) :
    parseTop (rpToks e) = .ok (reEx e, []) := by
  have h := reparse e hw (2 * (rpToks e).length + 2) []
  rw [List.append_nil] at h
  rcases h with h | h
  · rw [parseTop]
    exact h
  · exact absurd h ((parse_fuel _).1 (rpToks e) (by omega))

/-- C4 counterexample: the freshly parsed tree of the source `(1)`
renders with a leading quote mark, so re-tokenizing and re-parsing its
display text yields the quote-mark Atom first — not a tree structurally
equivalent to the original List. -/
theorem c4_roundtrip_counterexample :
    parseTop (tokenize "(1)") = .ok (.list [.atom (.int 1)], []) ∧
    parseTop (tokenize (renderStr (.list [.atom (.int 1)]))) =
      .ok (.atom (.str qStr), [['('], ['1'], [')']]) ∧
    Obj.atom (.str qStr) ≠ .list [.atom (.int 1)] :=
  ⟨rfl, rfl, fun h => Obj.noConfusion h⟩

/-- C4 as amended: for every tree freshly parsed from tokenized source,
rendering and re-tokenizing/re-parsing yields the tree itself when it is
an Atom; when it is a List, the rendering's leading quote mark makes the
first re-parsed form the quote-mark Atom, and parsing the remaining
tokens returns the original tree with an extra quote-mark Atom inserted
before every nested List (`reEx`). -/
theorem c4_render_reparse (s : String) (e : Obj) (rest : List Tok)
    (h : parseTop (tokenize s) = .ok (e, rest)) :
    (∀ a : AtomVal, e = .atom a → parseTop (tokenize (renderStr e)) = .ok (e, [])) ∧
    (∀ xs : List Obj, e = .list xs →
      parseTop (tokenize (renderStr e)) = .ok (.atom (.str qStr), rpToks e) ∧
      parseTop (rpToks e) = .ok (reEx e, [])) := by
  have hgood := tokenize_good s
  have hwf : wfT e = true := by
    rw [parseTop] at h
    exact ((parse_wf _).1 _ _ _ h hgood).1
  have htok : tokenize (renderStr e) = rToks e := tokenize_render e hwf
  constructor
  · intro a hea
    subst hea
    rw [htok]
    rw [show rToks (.atom a) = [atomTok a] from rfl, parseTop]
    rw [show 2 * ([atomTok a] : List Tok).length + 2 = 3 + 1 from by simp]
    exact parseT_atomTok a hwf 3 []
  · intro xs hexs
    subst hexs
    refine ⟨?_, reparse_top (.list xs) hwf⟩
    rw [htok]
    rw [show rToks (.list xs) = [qc] :: rpToks (.list xs) from by simp [rToks, rpToks]]
    rw [parseTop]
    rw [show 2 * ([qc] :: rpToks (.list xs)).length + 2 =
        (2 * (rpToks (.list xs)).length + 3) + 1 from by simp [List.length_cons]; omega]
    rw [parseT, if_neg (show ¬([qc] = ['(']) from by decide),
      if_neg (show ¬([qc] = [')']) from by decide)]
    rw [show mkAtom [qc] = .str qStr from rfl]

/-- Witness for the amended C4 at concrete inputs: the parsed atom `7`
round-trips to itself, and the parsed list `(1)` re-parses as the
quote-mark Atom followed by the unchanged tree. -/
theorem c4_render_reparse_witness :
    parseTop (tokenize (renderStr (.atom (.int 7)))) = .ok (.atom (.int 7), []) ∧
    parseTop (tokenize (renderStr (.list [.atom (.int 1)]))) =
      .ok (.atom (.str qStr), rpToks (.list [.atom (.int 1)])) ∧
    parseTop (rpToks (.list [.atom (.int 1)])) =
      .ok (reEx (.list [.atom (.int 1)]), []) := by
  have h1 := (c4_render_reparse "7" (.atom (.int 7)) [] rfl).1 (.int 7) rfl
  have h2 := (c4_render_reparse "(1)" (.list [.atom (.int 1)]) [] rfl).2
    [.atom (.int 1)] rfl
  exact ⟨h1, h2.1, h2.2⟩

end Pylisp
